import Mathlib

/-!
Verification of the wastewater treatment simulation engine
(`wastewater_simulation.py`).

Concentration vectors and removal profiles are modelled as association
lists from parameter names to rational values (Python dict insertion
order is significant for the rendered output, so we keep lists rather
than finite maps).  Python's `d[k] *= x` raises `KeyError` when `k` is
absent, so the update primitive `setMul` returns an `Option`; `d[k] = x`
inserts when absent, so `setVal` is total.  All numeric constants are
taken verbatim from the source as exact rationals.
-/

namespace Wastewater

abbrev Param := String

abbrev Conc := List (Param × ℚ)

/-- First-occurrence lookup in an association list (Python `d.get(k)` /
`d[k]`; dict keys are unique, so first occurrence is the occurrence). -/
def alistLookup {α : Type} : List (Param × α) → Param → Option α
  | [], _ => none
  | (q, v) :: rest, p => if q = p then some v else alistLookup rest p

/-- Python `d[p] *= f`: multiply the value at key `p` by `f`; `none`
models the `KeyError` raised when `p` is absent. -/
def setMul (p : Param) (f : ℚ) : Conc → Option Conc
  | [] => none
  | (q, v) :: rest =>
      if q = p then some ((q, v * f) :: rest)
      else Option.map (fun r => (q, v) :: r) (setMul p f rest)

/-- Python `d[p] = x`: update the value at key `p`, inserting at the end
when absent. -/
def setVal (p : Param) (x : ℚ) : Conc → Conc
  | [] => [(p, x)]
  | (q, v) :: rest => if q = p then (q, x) :: rest else (q, v) :: setVal p x rest

/-- The loop `for param, removal in removals.items(): new[param] *= (1 - removal)`
applied to a copy of the input. -/
def applyRemovals (removals : List (Param × ℚ)) (conc : Conc) : Option Conc :=
  removals.foldl (fun acc e => acc.bind (setMul e.1 (1 - e.2))) (some conc)

/-- `profile.get(p, 0)`. -/
def getFrac (removals : List (Param × ℚ)) (p : Param) : ℚ :=
  (alistLookup removals p).getD 0

/-- `self.raw_wastewater` as built in `__init__` (plan-dependent values). -/
def raw_wastewater (plan : Nat) : Conc :=
  [ ("pH", 7.5),
    ("TSS", if plan = 1 then 47.6 else 47.57),
    ("TDS", 669),
    ("COD", 1552),
    ("BOD", if plan = 1 then 1025 else 536),
    ("Conductivity", 1214.4),
    ("Turbidity", 345),
    ("Alkalinity", 151.3),
    ("Total Nitrates", if plan = 1 then 28.2 else 26.8),
    ("Total Phosphates", 96.6),
    ("Total Color", if plan = 1 then 11423.3 else 10852.1),
    ("Total Zinc", 5.0) ]

/-- An effluent limit is either a scalar ceiling or an inclusive range
(the Python code distinguishes them with `isinstance(limit, tuple)`). -/
inductive Limit where
  | scalar : ℚ → Limit
  | range : ℚ → ℚ → Limit

/-- `self.effluent_limits`. -/
def effluent_limits : List (Param × Limit) :=
  [ ("TSS", Limit.scalar 20),
    ("TDS", Limit.scalar 500),
    ("COD", Limit.scalar 150),
    ("BOD", Limit.scalar 30),
    ("Conductivity", Limit.scalar 1000),
    ("Turbidity", Limit.scalar 5),
    ("Alkalinity", Limit.range 50 150),
    ("Total Nitrates", Limit.scalar 10),
    ("Total Phosphates", Limit.scalar 5),
    ("Total Color", Limit.scalar 50),
    ("Total Zinc", Limit.scalar 2.0) ]

/-- `removals` table of `fine_screen`. -/
def fineScreenRemovals : List (Param × ℚ) :=
  [ ("BOD", 0.025), ("COD", 0.0), ("TSS", 0.10), ("TDS", 0.0),
    ("Total Color", 0.0), ("Turbidity", 0.025), ("Conductivity", 0.025),
    ("Alkalinity", 0.025), ("Total Nitrates", 0.025),
    ("Total Phosphates", 0.025), ("Total Zinc", 0.05) ]

/-- `removals` table of `plain_sedimentation` (Plan 1). -/
def plainSedRemovals : List (Param × ℚ) :=
  [ ("BOD", 0.325), ("COD", 0.25), ("TSS", 0.60), ("TDS", 0.0),
    ("Total Color", 0.15), ("Turbidity", 0.40), ("Conductivity", 0.025),
    ("Alkalinity", 0.025), ("Total Nitrates", 0.025),
    ("Total Phosphates", 0.15), ("Total Zinc", 0.30) ]

/-- `removals` table of `coagulation_tank` (Plan 2). -/
def coagulationRemovals : List (Param × ℚ) :=
  [ ("BOD", 0.20), ("COD", 0.30), ("TSS", 0.55), ("TDS", 0.075),
    ("Total Color", 0.50), ("Turbidity", 0.65), ("Conductivity", 0.10),
    ("Alkalinity", 0.20), ("Total Nitrates", 0.20),
    ("Total Phosphates", 0.80), ("Total Zinc", 0.60) ]

/-- `removals` table of `flocculation_chamber` (Plan 2). -/
def flocculationRemovals : List (Param × ℚ) :=
  [ ("BOD", 0.075), ("COD", 0.15), ("TSS", 0.30), ("TDS", 0.025),
    ("Total Color", 0.20), ("Turbidity", 0.45), ("Conductivity", 0.025),
    ("Alkalinity", 0.025), ("Total Nitrates", 0.025),
    ("Total Phosphates", 0.15), ("Total Zinc", 0.20) ]

/-- `removals` table of `sedimentation` (Plan 2). -/
def sedimentationRemovals : List (Param × ℚ) :=
  [ ("BOD", 0.50), ("COD", 0.35), ("TSS", 0.70), ("TDS", 0.0),
    ("Total Color", 0.30), ("Turbidity", 0.55), ("Conductivity", 0.025),
    ("Alkalinity", 0.025), ("Total Nitrates", 0.025),
    ("Total Phosphates", 0.875), ("Total Zinc", 0.50) ]

/-- Plan-dependent `removals` table of `electrocoagulation`. -/
def electroRemovals (plan : Nat) : List (Param × ℚ) :=
  if plan = 1 then
    [ ("BOD", 0.725), ("COD", 0.725), ("TSS", 0.825), ("TDS", 0.20),
      ("Total Color", 0.725), ("Turbidity", 0.875), ("Conductivity", 0.20),
      ("Alkalinity", 0.20), ("Total Nitrates", 0.30),
      ("Total Phosphates", 0.80), ("Total Zinc", 0.85) ]
  else
    [ ("BOD", 0.75), ("COD", 0.725), ("TSS", 0.825), ("TDS", 0.20),
      ("Total Color", 0.73), ("Turbidity", 0.825), ("Conductivity", 0.20),
      ("Alkalinity", 0.20), ("Total Nitrates", 0.30),
      ("Total Phosphates", 0.80), ("Total Zinc", 0.85) ]

/-- `removals` table of `rapid_sand_filter`. -/
def rapidSandRemovals : List (Param × ℚ) :=
  [ ("BOD", 0.20), ("COD", 0.10), ("TSS", 0.875), ("TDS", 0.0),
    ("Total Color", 0.30), ("Turbidity", 0.895), ("Conductivity", 0.025),
    ("Alkalinity", 0.025), ("Total Nitrates", 0.025),
    ("Total Phosphates", 0.30), ("Total Zinc", 0.20) ]

/-- `_adjust_pH`. -/
def adjust_pH (current_pH : ℚ) : ℚ :=
  if current_pH < 7 then min (current_pH * 1.1) 7.0
  else if current_pH > 8 then max (current_pH * 0.95) 7.5
  else current_pH

def fine_screen (conc : Conc) : Option Conc :=
  applyRemovals fineScreenRemovals conc

def plain_sedimentation (conc : Conc) : Option Conc :=
  applyRemovals plainSedRemovals conc

def coagulation_tank (conc : Conc) : Option Conc :=
  applyRemovals coagulationRemovals conc

def flocculation_chamber (conc : Conc) : Option Conc :=
  applyRemovals flocculationRemovals conc

def sedimentation (conc : Conc) : Option Conc :=
  applyRemovals sedimentationRemovals conc

/-- `electrocoagulation`: multiplicative removals, then
`new['pH'] = self._adjust_pH(concentrations['pH'])`, where the pH read is
from the ORIGINAL input (`KeyError`, hence `none`, if absent). -/
def electrocoagulation (plan : Nat) (conc : Conc) : Option Conc :=
  (applyRemovals (electroRemovals plan) conc).bind fun newConc =>
    (alistLookup conc "pH").map fun v => setVal "pH" (adjust_pH v) newConc

def rapid_sand_filter (conc : Conc) : Option Conc :=
  applyRemovals rapidSandRemovals conc

/-- The stage list built at construction time.  Note the source uses a
bare `else`, so every plan other than `1` receives the Plan 2 pipeline. -/
def treatment_units (plan : Nat) : List (Param × (Conc → Option Conc)) :=
  if plan = 1 then
    [ ("Fine Screen", fine_screen),
      ("Plain Sedimentation", plain_sedimentation),
      ("Electrocoagulation", electrocoagulation plan),
      ("Rapid Sand Filter", rapid_sand_filter) ]
  else
    [ ("Fine Screen", fine_screen),
      ("Coagulation Tank", coagulation_tank),
      ("Flocculation Chamber", flocculation_chamber),
      ("Sedimentation", sedimentation),
      ("Electrocoagulation", electrocoagulation plan),
      ("Rapid Sand Filter", rapid_sand_filter) ]

/-- The loop of `run_simulation`: thread the vector through the units,
recording `(unit name, output)` after each stage. -/
def runUnits : List (Param × (Conc → Option Conc)) → Conc → Option (List (Param × Conc))
  | [], _ => some []
  | (n, f) :: rest, c =>
      (f c).bind fun c2 => (runUnits rest c2).map fun t => (n, c2) :: t

/-- `run_simulation`: raw entry followed by one entry per unit. -/
def run_simulation (plan : Nat) : Option (List (Param × Conc)) :=
  (runUnits (treatment_units plan) (raw_wastewater plan)).map
    fun t => ("Raw Wastewater", raw_wastewater plan) :: t

/-- `isinstance(limit, tuple)` dispatch of `evaluate_compliance`. -/
def meets_limit (l : Limit) (v : ℚ) : Bool :=
  match l with
  | Limit.scalar lim => decide (v ≤ lim)
  | Limit.range lo hi => decide (lo ≤ v) && decide (v ≤ hi)

/-- The per-parameter loop of `evaluate_compliance` over the final
effluent vector: pH is always `(value, True)`; parameters with no limit
are skipped; otherwise the limit check is applied. -/
def evaluate_compliance (final : Conc) : List (Param × ℚ × Bool) :=
  final.filterMap fun e =>
    if e.1 = "pH" then some (e.1, e.2, true)
    else
      match alistLookup effluent_limits e.1 with
      | none => none
      | some l => some (e.1, e.2, meets_limit l e.2)

/-- The mutable state of a `WastewaterTreatmentSimulation` object: the
plan selector and `self.concentration_history` (empty at construction). -/
structure Simulation where
  plan : Nat
  history : List (Param × Conc)

/-- `__init__`: stores the plan and an empty history; no validation of
the plan selector is performed. -/
def mkSim (plan : Nat) : Simulation :=
  { plan := plan, history := [] }

/-- `run_simulation` as a state transformer: recomputes the history and
stores it on the object. -/
def run_simulation_state (s : Simulation) : Option Simulation :=
  (run_simulation s.plan).map fun h => { s with history := h }

/-- The `evaluate_compliance` method: lazily runs the simulation when no
history exists, then evaluates the last history entry (reading
`history[-1]` of an empty history would be an `IndexError`, hence the
`getLast?`).  Returns the possibly-updated object state and the record. -/
def evaluate_compliance_run (s : Simulation) :
    Option (Simulation × List (Param × ℚ × Bool)) :=
  (if s.history = [] then run_simulation_state s else some s).bind fun t =>
    t.history.getLast?.map fun last => (t, evaluate_compliance last.2)

/-- The 12 tracked parameters, in insertion order. -/
def paramNames : List Param :=
  [ "pH", "TSS", "TDS", "COD", "BOD", "Conductivity", "Turbidity",
    "Alkalinity", "Total Nitrates", "Total Phosphates", "Total Color",
    "Total Zinc" ]

/-- Pointwise attenuation relation between two vectors: same keys in the
same positions, and every non-negative value stays non-negative and does
not grow. -/
def Atten (conc out : Conc) : Prop :=
  List.Forall₂ (fun a b => a.1 = b.1 ∧ (0 ≤ a.2 → 0 ≤ b.2 ∧ b.2 ≤ a.2)) conc out

theorem alistLookup_eq_none {α : Type} :
    ∀ (l : List (Param × α)) (p : Param), p ∉ l.map Prod.fst → alistLookup l p = none := by
  intro l
  induction l with
  | nil => intro p _; rfl
  | cons e rest ih =>
    intro p hp
    obtain ⟨q, v⟩ := e
    simp only [List.map_cons, List.mem_cons, not_or] at hp
    have hqp : ¬q = p := fun h => hp.1 h.symm
    simp [alistLookup, hqp, ih p hp.2]

theorem setMul_some (p : Param) (f : ℚ) :
    ∀ conc : Conc, p ∈ conc.map Prod.fst → ∃ out, setMul p f conc = some out := by
  intro conc
  induction conc with
  | nil => intro h; simp at h
  | cons e rest ih =>
    intro h
    obtain ⟨q, v⟩ := e
    by_cases hq : q = p
    · exact ⟨(q, v * f) :: rest, by simp [setMul, hq]⟩
    · simp only [List.map_cons, List.mem_cons] at h
      rcases h with h | h
      · exact absurd h.symm hq
      · obtain ⟨out, ho⟩ := ih h
        exact ⟨(q, v) :: out, by simp [setMul, hq, ho]⟩

theorem setMul_keys (p : Param) (f : ℚ) :
    ∀ conc out : Conc, setMul p f conc = some out →
      out.map Prod.fst = conc.map Prod.fst := by
  intro conc
  induction conc with
  | nil => intro out h; simp [setMul] at h
  | cons e rest ih =>
    intro out h
    obtain ⟨q, v⟩ := e
    by_cases hq : q = p
    · simp only [setMul, if_pos hq, Option.some.injEq] at h
      subst h; rfl
    · simp only [setMul, if_neg hq, Option.map_eq_some'] at h
      obtain ⟨r, hr, hout⟩ := h
      subst hout
      simp [ih r hr]

theorem setMul_lookup_self (p : Param) (f : ℚ) :
    ∀ conc out : Conc, setMul p f conc = some out →
      alistLookup out p = (alistLookup conc p).map (fun v => v * f) := by
  intro conc
  induction conc with
  | nil => intro out h; simp [setMul] at h
  | cons e rest ih =>
    intro out h
    obtain ⟨q, v⟩ := e
    by_cases hq : q = p
    · simp only [setMul, if_pos hq, Option.some.injEq] at h
      subst h
      simp [alistLookup, hq]
    · simp only [setMul, if_neg hq, Option.map_eq_some'] at h
      obtain ⟨r, hr, hout⟩ := h
      subst hout
      simp [alistLookup, hq, ih r hr]

theorem setMul_lookup_ne (p q : Param) (f : ℚ) (hqp : q ≠ p) :
    ∀ conc out : Conc, setMul p f conc = some out →
      alistLookup out q = alistLookup conc q := by
  intro conc
  induction conc with
  | nil => intro out h; simp [setMul] at h
  | cons e rest ih =>
    intro out h
    obtain ⟨a, v⟩ := e
    by_cases ha : a = p
    · simp only [setMul, if_pos ha, Option.some.injEq] at h
      subst h
      have haq : ¬a = q := fun hh => hqp (hh.symm.trans ha)
      simp [alistLookup, haq]
    · simp only [setMul, if_neg ha, Option.map_eq_some'] at h
      obtain ⟨r, hr, hout⟩ := h
      subst hout
      by_cases haq : a = q
      · simp [alistLookup, haq]
      · simp [alistLookup, haq, ih r hr]

theorem setVal_lookup_self (p : Param) (x : ℚ) :
    ∀ conc : Conc, alistLookup (setVal p x conc) p = some x := by
  intro conc
  induction conc with
  | nil => simp [setVal, alistLookup]
  | cons e rest ih =>
    obtain ⟨q, v⟩ := e
    by_cases hq : q = p
    · simp [setVal, hq, alistLookup]
    · simp [setVal, hq, alistLookup, ih]

theorem setVal_lookup_ne (p q : Param) (x : ℚ) (hqp : q ≠ p) :
    ∀ conc : Conc, alistLookup (setVal p x conc) q = alistLookup conc q := by
  intro conc
  induction conc with
  | nil =>
    have hpq : ¬p = q := fun h => hqp h.symm
    simp [setVal, alistLookup, hpq]
  | cons e rest ih =>
    obtain ⟨a, v⟩ := e
    by_cases ha : a = p
    · subst ha
      have haq : ¬a = q := fun h => hqp h.symm
      simp [setVal, alistLookup, haq]
    · by_cases haq : a = q
      · have hqp' : ¬q = p := fun h => hqp h
        simp [setVal, ha, alistLookup, haq, hqp']
      · simp [setVal, ha, alistLookup, haq, ih]

theorem atten_refl : ∀ conc : Conc, Atten conc conc := by
  intro conc
  induction conc with
  | nil => exact List.Forall₂.nil
  | cons e rest ih =>
    exact List.Forall₂.cons ⟨rfl, fun h => ⟨h, le_refl _⟩⟩ ih

theorem atten_trans : ∀ {a b c : Conc}, Atten a b → Atten b c → Atten a c := by
  intro a b c h1
  induction h1 generalizing c with
  | nil => intro h2; cases h2; exact List.Forall₂.nil
  | cons hab _ ih =>
    intro h2
    cases h2 with
    | cons hbc h2' =>
      refine List.Forall₂.cons ⟨hab.1.trans hbc.1, fun hx => ?_⟩ (ih h2')
      obtain ⟨hb0, hble⟩ := hab.2 hx
      obtain ⟨hc0, hcle⟩ := hbc.2 hb0
      exact ⟨hc0, hcle.trans hble⟩

theorem setMul_atten (p : Param) {f : ℚ} (h0 : 0 ≤ f) (h1 : f ≤ 1) :
    ∀ conc out : Conc, setMul p f conc = some out → Atten conc out := by
  intro conc
  induction conc with
  | nil => intro out h; simp [setMul] at h
  | cons e rest ih =>
    intro out h
    obtain ⟨q, v⟩ := e
    by_cases hq : q = p
    · simp only [setMul, if_pos hq, Option.some.injEq] at h
      subst h
      refine List.Forall₂.cons ⟨rfl, fun hv => ?_⟩ (atten_refl rest)
      exact ⟨mul_nonneg hv h0, mul_le_of_le_one_right hv h1⟩
    · simp only [setMul, if_neg hq, Option.map_eq_some'] at h
      obtain ⟨r, hr, hout⟩ := h
      subst hout
      exact List.Forall₂.cons ⟨rfl, fun hv => ⟨hv, le_refl _⟩⟩ (ih r hr)

theorem applyRemovals_acc_none (removals : List (Param × ℚ)) :
    List.foldl (fun acc e => acc.bind (setMul e.1 (1 - e.2))) none removals = none := by
  induction removals with
  | nil => rfl
  | cons e rest ih => simp [List.foldl_cons, Option.none_bind, ih]

theorem applyRemovals_atten :
    ∀ (removals : List (Param × ℚ)) (conc out : Conc),
      (∀ e ∈ removals, 0 ≤ e.2 ∧ e.2 ≤ 1) →
      applyRemovals removals conc = some out → Atten conc out := by
  intro removals
  induction removals with
  | nil =>
    intro conc out _ h
    simp only [applyRemovals, List.foldl_nil, Option.some.injEq] at h
    subst h; exact atten_refl conc
  | cons e rest ih =>
    intro conc out hb h
    rw [applyRemovals, List.foldl_cons] at h
    cases hm : setMul e.1 (1 - e.2) conc with
    | none =>
      rw [show (some conc).bind (setMul e.1 (1 - e.2)) = none by simp [hm]] at h
      rw [applyRemovals_acc_none] at h
      exact absurd h (by simp)
    | some c1 =>
      rw [show (some conc).bind (setMul e.1 (1 - e.2)) = some c1 by simp [hm]] at h
      have hb1 := hb e (List.mem_cons_self _ _)
      have h01 : 0 ≤ 1 - e.2 ∧ 1 - e.2 ≤ 1 := ⟨by linarith [hb1.2], by linarith [hb1.1]⟩
      exact atten_trans (setMul_atten e.1 h01.1 h01.2 conc c1 hm)
        (ih c1 out (fun x hx => hb x (List.mem_cons_of_mem _ hx)) h)

theorem atten_lookup : ∀ {conc out : Conc}, Atten conc out →
    ∀ p v, alistLookup conc p = some v →
      ∃ w, alistLookup out p = some w ∧ (0 ≤ v → 0 ≤ w ∧ w ≤ v) := by
  intro conc out h
  induction h with
  | nil => intro p v hv; simp [alistLookup] at hv
  | cons hab _ ih =>
    rename_i a b as bs _
    intro p v hv
    obtain ⟨a1, a2⟩ := a
    obtain ⟨b1, b2⟩ := b
    obtain ⟨hk, hval⟩ := hab
    simp only at hk
    subst hk
    by_cases hp : a1 = p
    · rw [alistLookup, if_pos hp] at hv
      injection hv with hv
      subst hv
      exact ⟨b2, by rw [alistLookup, if_pos hp], hval⟩
    · rw [alistLookup, if_neg hp] at hv
      obtain ⟨w, hw, hwp⟩ := ih p v hv
      exact ⟨w, by rw [alistLookup, if_neg hp]; exact hw, hwp⟩

theorem atten_nonneg : ∀ {conc out : Conc}, Atten conc out →
    (∀ e ∈ conc, 0 ≤ e.2) → ∀ e ∈ out, 0 ≤ e.2 := by
  intro conc out h
  induction h with
  | nil => intro _ e he; simp at he
  | cons hab _ ih =>
    rename_i a b as bs _
    intro hc e he
    rcases List.mem_cons.mp he with he | he
    · subst he
      exact (hab.2 (hc a (List.mem_cons_self _ _))).1
    · exact ih (fun x hx => hc x (List.mem_cons_of_mem _ hx)) e he

theorem applyRemovals_spec :
    ∀ (removals : List (Param × ℚ)) (conc : Conc),
      (removals.map Prod.fst).Nodup →
      (∀ e ∈ removals, e.1 ∈ conc.map Prod.fst) →
      ∃ out, applyRemovals removals conc = some out ∧
        out.map Prod.fst = conc.map Prod.fst ∧
        ∀ p, alistLookup out p =
          (alistLookup conc p).map (fun v => v * (1 - getFrac removals p)) := by
  intro removals
  induction removals with
  | nil =>
    intro conc _ _
    refine ⟨conc, rfl, rfl, fun p => ?_⟩
    cases h : alistLookup conc p <;> simp [getFrac, alistLookup, h]
  | cons e rest ih =>
    intro conc hnd hkeys
    obtain ⟨q, f⟩ := e
    simp only [List.map_cons, List.nodup_cons] at hnd
    have hq : q ∈ conc.map Prod.fst := hkeys (q, f) (List.mem_cons_self _ _)
    obtain ⟨c1, hc1⟩ := setMul_some q (1 - f) conc hq
    have hk1 : c1.map Prod.fst = conc.map Prod.fst := setMul_keys q (1 - f) conc c1 hc1
    obtain ⟨out, ho, hko, hlo⟩ := ih c1 hnd.2
      (fun x hx => hk1 ▸ hkeys x (List.mem_cons_of_mem _ hx))
    refine ⟨out, ?_, hko.trans hk1, fun p => ?_⟩
    · rw [applyRemovals, List.foldl_cons,
        show (some conc).bind (setMul q (1 - f)) = some c1 by simp [hc1]]
      exact ho
    · by_cases hp : p = q
      · subst hp
        rw [hlo p, setMul_lookup_self p (1 - f) conc c1 hc1]
        have hr : getFrac rest p = 0 := by
          rw [getFrac, alistLookup_eq_none rest p hnd.1]; rfl
        have hcons : getFrac ((p, f) :: rest) p = f := by
          simp [getFrac, alistLookup]
        rw [hr, hcons]
        cases h : alistLookup conc p <;> simp [h]
      · rw [hlo p, setMul_lookup_ne q p (1 - f) hp conc c1 hc1]
        have hqp : ¬q = p := fun h => hp h.symm
        have : getFrac ((q, f) :: rest) p = getFrac rest p := by
          simp [getFrac, alistLookup, hqp]
        rw [this]

theorem applyRemovals_lookup_notMem :
    ∀ (removals : List (Param × ℚ)) (conc out : Conc) (p : Param),
      p ∉ removals.map Prod.fst →
      applyRemovals removals conc = some out →
      alistLookup out p = alistLookup conc p := by
  intro removals
  induction removals with
  | nil =>
    intro conc out p _ h
    simp only [applyRemovals, List.foldl_nil, Option.some.injEq] at h
    subst h; rfl
  | cons e rest ih =>
    intro conc out p hp h
    obtain ⟨q, f⟩ := e
    simp only [List.map_cons, List.mem_cons, not_or] at hp
    rw [applyRemovals, List.foldl_cons] at h
    cases hm : setMul q (1 - f) conc with
    | none =>
      rw [show (some conc).bind (setMul q (1 - f)) = none by simp [hm],
        applyRemovals_acc_none] at h
      exact absurd h (by simp)
    | some c1 =>
      rw [show (some conc).bind (setMul q (1 - f)) = some c1 by simp [hm]] at h
      have hqp : q ≠ p := fun hh => hp.1 hh.symm
      rw [ih c1 out p hp.2 h, setMul_lookup_ne q p (1 - f) ?_ conc c1 hm]
      exact hp.1

theorem stage_atten_lookup (table : List (Param × ℚ))
    (hb : ∀ e ∈ table, 0 ≤ e.2 ∧ e.2 ≤ 1) (conc out : Conc)
    (h : applyRemovals table conc = some out) (p : Param) (v : ℚ)
    (hv : alistLookup conc p = some v) (h0 : 0 ≤ v) (w : ℚ)
    (hw : alistLookup out p = some w) : w ≤ v := by
  obtain ⟨w', hw', hprop⟩ :=
    atten_lookup (applyRemovals_atten table conc out hb h) p v hv
  rw [hw] at hw'
  injection hw' with hww
  subst hww
  exact (hprop h0).2

theorem electroRemovals_bounds (plan : Nat) :
    ∀ e ∈ electroRemovals plan, 0 ≤ e.2 ∧ e.2 ≤ 1 := by
  by_cases h1 : plan = 1
  · rw [electroRemovals, if_pos h1]
    intro e he; fin_cases he <;> norm_num
  · rw [electroRemovals, if_neg h1]
    intro e he; fin_cases he <;> norm_num

theorem electro_lookup (plan : Nat) (conc out : Conc)
    (h : electrocoagulation plan conc = some out) :
    (∃ v, alistLookup conc "pH" = some v ∧
      alistLookup out "pH" = some (adjust_pH v)) ∧
    ∀ p, p ≠ "pH" → ∀ v w, alistLookup conc p = some v → 0 ≤ v →
      alistLookup out p = some w → w ≤ v := by
  rw [electrocoagulation] at h
  cases ha : applyRemovals (electroRemovals plan) conc with
  | none => rw [ha] at h; simp at h
  | some newc =>
    rw [ha] at h
    simp only [Option.some_bind] at h
    cases hpH : alistLookup conc "pH" with
    | none => rw [hpH] at h; simp at h
    | some v =>
      rw [hpH] at h
      simp only [Option.map_some', Option.some.injEq] at h
      subst h
      constructor
      · exact ⟨v, rfl, setVal_lookup_self "pH" (adjust_pH v) newc⟩
      · intro p hp v' w hv' h0 hw
        rw [setVal_lookup_ne "pH" p (adjust_pH v) hp newc] at hw
        exact stage_atten_lookup (electroRemovals plan)
          (electroRemovals_bounds plan) conc newc ha p v' hv' h0 w hw

theorem runUnits_length :
    ∀ (units : List (Param × (Conc → Option Conc))) (c : Conc)
      (t : List (Param × Conc)),
      runUnits units c = some t → t.length = units.length := by
  intro units
  induction units with
  | nil =>
    intro c t h
    simp only [runUnits, Option.some.injEq] at h
    subst h; rfl
  | cons u rest ih =>
    intro c t h
    obtain ⟨n, f⟩ := u
    simp only [runUnits] at h
    cases hf : f c with
    | none => rw [hf] at h; simp at h
    | some c2 =>
      rw [hf] at h
      simp only [Option.some_bind] at h
      rcases Option.map_eq_some'.mp h with ⟨t', ht', rfl⟩
      simp [ih c2 t' ht']

theorem runUnits_names :
    ∀ (units : List (Param × (Conc → Option Conc))) (c : Conc)
      (t : List (Param × Conc)),
      runUnits units c = some t → t.map Prod.fst = units.map Prod.fst := by
  intro units
  induction units with
  | nil =>
    intro c t h
    simp only [runUnits, Option.some.injEq] at h
    subst h; rfl
  | cons u rest ih =>
    intro c t h
    obtain ⟨n, f⟩ := u
    simp only [runUnits] at h
    cases hf : f c with
    | none => rw [hf] at h; simp at h
    | some c2 =>
      rw [hf] at h
      simp only [Option.some_bind] at h
      rcases Option.map_eq_some'.mp h with ⟨t', ht', rfl⟩
      simp [ih c2 t' ht']

theorem runUnits_thread :
    ∀ (units : List (Param × (Conc → Option Conc))) (c : Conc)
      (t : List (Param × Conc)),
      runUnits units c = some t →
      ∀ i u, units.get? i = some u →
        ∃ prev cur, (c :: t.map Prod.snd).get? i = some prev ∧
          t.get? i = some cur ∧ cur.1 = u.1 ∧ u.2 prev = some cur.2 := by
  intro units
  induction units with
  | nil => intro c t _ i u hu; simp at hu
  | cons u0 rest ih =>
    intro c t h i u hu
    obtain ⟨n, f⟩ := u0
    simp only [runUnits] at h
    cases hf : f c with
    | none => rw [hf] at h; simp at h
    | some c2 =>
      rw [hf] at h
      simp only [Option.some_bind] at h
      rcases Option.map_eq_some'.mp h with ⟨t', ht', rfl⟩
      cases i with
      | zero =>
        simp only [List.get?_cons_zero, Option.some.injEq] at hu
        subst hu
        exact ⟨c, (n, c2), rfl, rfl, rfl, by exact hf⟩
      | succ i =>
        obtain ⟨prev, cur, hp, hc, hn, he⟩ :=
          ih c2 t' ht' i u (by simpa using hu)
        exact ⟨prev, cur, by simpa using hp, by simpa using hc, hn, he⟩

/-- C3: For every well-formed input concentration vector (every profile
parameter present, values non-negative) and every removal profile (unique
keys, fractions in [0,1]), the stage transform is total (no error),
returns a vector with exactly the same parameter set, maps each parameter
`p` to `in[p] * (1 - profile.get(p, 0))` (parameters absent from the
profile are unaffected), and produces no negative value. -/
theorem C3_thm (profile : List (Param × ℚ)) (conc : Conc)
    (hnd : (profile.map Prod.fst).Nodup)
    (hkeys : ∀ e ∈ profile, e.1 ∈ conc.map Prod.fst)
    (hfrac : ∀ e ∈ profile, 0 ≤ e.2 ∧ e.2 ≤ 1)
    (hpos : ∀ e ∈ conc, 0 ≤ e.2) :
    ∃ out, applyRemovals profile conc = some out ∧
      out.map Prod.fst = conc.map Prod.fst ∧
      (∀ p v, alistLookup conc p = some v →
        alistLookup out p = some (v * (1 - getFrac profile p))) ∧
      ∀ e ∈ out, 0 ≤ e.2 := by
  obtain ⟨out, ho, hk, hl⟩ := applyRemovals_spec profile conc hnd hkeys
  refine ⟨out, ho, hk, fun p v hv => ?_,
    atten_nonneg (applyRemovals_atten profile conc out hfrac ho) hpos⟩
  rw [hl p, hv]
  rfl

/-- Witness for C3 at the fine screen profile and the Plan 1 raw vector. -/
theorem C3_wit :
    ∃ out, applyRemovals fineScreenRemovals (raw_wastewater 1) = some out ∧
      out.map Prod.fst = (raw_wastewater 1).map Prod.fst ∧
      (∀ p v, alistLookup (raw_wastewater 1) p = some v →
        alistLookup out p = some (v * (1 - getFrac fineScreenRemovals p))) ∧
      ∀ e ∈ out, 0 ≤ e.2 :=
  C3_thm fineScreenRemovals (raw_wastewater 1) (by decide) (by decide)
    (by norm_num [fineScreenRemovals, List.forall_mem_cons])
    (by norm_num [raw_wastewater, List.forall_mem_cons])

/-- C5: the compliance evaluator works entrywise on the final vector: pH
always yields `(value, true)`; parameters absent from the limit table are
skipped; a scalar limit `L` passes iff `value ≤ L`; a range limit
`[lo, hi]` passes iff `lo ≤ value ≤ hi`; in particular Alkalinity passes
iff its value lies in [50, 150], with 50 and 150 passing and 49.999 and
150.001 failing. -/
theorem C5_thm :
    (∀ xs ys : Conc, evaluate_compliance (xs ++ ys)
        = evaluate_compliance xs ++ evaluate_compliance ys) ∧
    (∀ v : ℚ, evaluate_compliance [("pH", v)] = [("pH", v, true)]) ∧
    (∀ p v, p ≠ "pH" → alistLookup effluent_limits p = none →
      evaluate_compliance [(p, v)] = []) ∧
    (∀ p v lim, p ≠ "pH" → alistLookup effluent_limits p = some (Limit.scalar lim) →
      evaluate_compliance [(p, v)] = [(p, v, decide (v ≤ lim))]) ∧
    (∀ p v lo hi, p ≠ "pH" → alistLookup effluent_limits p = some (Limit.range lo hi) →
      evaluate_compliance [(p, v)] = [(p, v, decide (lo ≤ v) && decide (v ≤ hi))]) ∧
    (∀ v : ℚ, evaluate_compliance [("Alkalinity", v)]
        = [("Alkalinity", v, decide (50 ≤ v) && decide (v ≤ 150))]) ∧
    evaluate_compliance [("Alkalinity", 50)] = [("Alkalinity", 50, true)] ∧
    evaluate_compliance [("Alkalinity", 150)] = [("Alkalinity", 150, true)] ∧
    evaluate_compliance [("Alkalinity", 49.999)] = [("Alkalinity", 49.999, false)] ∧
    evaluate_compliance [("Alkalinity", 150.001)] = [("Alkalinity", 150.001, false)] := by
  have hrange : ∀ p v lo hi, p ≠ "pH" →
      alistLookup effluent_limits p = some (Limit.range lo hi) →
      evaluate_compliance [(p, v)] = [(p, v, decide (lo ≤ v) && decide (v ≤ hi))] :=
    fun p v lo hi hp hl => by simp [evaluate_compliance, hp, hl, meets_limit]
  have halk : ∀ v : ℚ, evaluate_compliance [("Alkalinity", v)]
      = [("Alkalinity", v, decide (50 ≤ v) && decide (v ≤ 150))] :=
    fun v => hrange "Alkalinity" v 50 150 (by decide) rfl
  refine ⟨fun xs ys => by simp [evaluate_compliance],
    fun v => by simp [evaluate_compliance],
    fun p v hp hl => by simp [evaluate_compliance, hp, hl],
    fun p v lim hp hl => by simp [evaluate_compliance, hp, hl, meets_limit],
    hrange, halk, ?_, ?_, ?_, ?_⟩ <;>
  rw [halk] <;> norm_num

/-- Witness for C5's conditional branches: "Flow" has no limit entry, so
it is skipped; "BOD" has the scalar limit 30. -/
theorem C5_wit :
    evaluate_compliance [("Flow", (3 : ℚ))] = [] ∧
    evaluate_compliance [("BOD", (3 : ℚ))] = [("BOD", (3 : ℚ), decide ((3 : ℚ) ≤ 30))] :=
  ⟨C5_thm.2.2.1 "Flow" 3 (by decide) rfl,
   C5_thm.2.2.2.1 "BOD" 3 30 (by decide) rfl⟩

/-- C6: a successful run produces a history of length `pipeline + 1`: the
raw entry first, then one entry per treatment unit, in pipeline order,
each unit applied to the previous entry's vector — 5 entries for Plan 1
and 7 for Plan 2. -/
theorem C6_thm (plan : Nat) (h : List (Param × Conc))
    (hrun : run_simulation plan = some h) :
    h.length = (treatment_units plan).length + 1 ∧
    h.map Prod.fst = "Raw Wastewater" :: (treatment_units plan).map Prod.fst ∧
    h.get? 0 = some ("Raw Wastewater", raw_wastewater plan) ∧
    (∀ i u, (treatment_units plan).get? i = some u →
      ∃ prev cur, (h.map Prod.snd).get? i = some prev ∧
        h.get? (i + 1) = some cur ∧ cur.1 = u.1 ∧ u.2 prev = some cur.2) ∧
    (plan = 1 → h.length = 5) ∧ (plan = 2 → h.length = 7) := by
  rw [run_simulation] at hrun
  rcases Option.map_eq_some'.mp hrun with ⟨t, ht, rfl⟩
  have hlen := runUnits_length _ _ _ ht
  have hnames := runUnits_names _ _ _ ht
  refine ⟨by simp [hlen], by simp [hnames], rfl, ?_, ?_, ?_⟩
  · intro i u hu
    obtain ⟨prev, cur, hp, hc, hn, he⟩ := runUnits_thread _ _ _ ht i u hu
    exact ⟨prev, cur, by simpa using hp, by simpa using hc, hn, he⟩
  · intro h1; subst h1; norm_num [hlen, treatment_units]
  · intro h2; subst h2; norm_num [hlen, treatment_units]

/-- Witness for C6 at Plan 1. -/
theorem C6_wit : ∃ h, run_simulation 1 = some h ∧ h.length = 5 := by
  obtain ⟨h, hrun⟩ : ∃ h, run_simulation 1 = some h := ⟨_, rfl⟩
  exact ⟨h, hrun, ((C6_thm 1 h hrun).2.2.2.2.1) rfl⟩

/-- C4: for every stage of either plan and every parameter with a
non-negative input value, the output never exceeds the input, except that
pH at the Electrocoagulation stage is EXACTLY `adjust_pH` of the input pH
(every other stage/parameter combination is non-increasing); and
`adjust_pH` obeys the documented rule: below 7 the value becomes
`min (v * 1.1) 7` (may increase, never past 7.0), above 8 it becomes
`max (v * 0.95) 7.5` (may decrease, never below 7.5), otherwise it is
unchanged. -/
theorem C4_thm (plan : Nat) (u : Param × (Conc → Option Conc))
    (hu : u ∈ treatment_units plan) (conc out : Conc) (p : Param) (v w : ℚ)
    (hrun : u.2 conc = some out) (hv : alistLookup conc p = some v)
    (h0 : 0 ≤ v) (hw : alistLookup out p = some w) :
    ((u.1 = "Electrocoagulation" ∧ p = "pH") → w = adjust_pH v) ∧
    (¬(u.1 = "Electrocoagulation" ∧ p = "pH") → w ≤ v) ∧
    (∀ x : ℚ, 0 ≤ x →
      (x < 7 → adjust_pH x = min (x * 1.1) 7 ∧ x ≤ adjust_pH x ∧ adjust_pH x ≤ 7) ∧
      (x > 8 → adjust_pH x = max (x * 0.95) 7.5 ∧ 7.5 ≤ adjust_pH x ∧ adjust_pH x ≤ x) ∧
      (7 ≤ x → x ≤ 8 → adjust_pH x = x)) := by
  have hpure : ∀ table : List (Param × ℚ), (∀ e ∈ table, 0 ≤ e.2 ∧ e.2 ≤ 1) →
      applyRemovals table conc = some out → w ≤ v :=
    fun table hb h => stage_atten_lookup table hb conc out h p v hv h0 w hw
  have hec2 : electrocoagulation plan conc = some out →
      (p = "pH" → w = adjust_pH v) ∧ (p ≠ "pH" → w ≤ v) := by
    intro h
    obtain ⟨⟨v0, hv0, hout0⟩, hother⟩ := electro_lookup plan conc out h
    constructor
    · intro hp
      subst hp
      have hv0v : v0 = v := Option.some.inj (hv0.symm.trans hv)
      have hwv : w = adjust_pH v0 := Option.some.inj (hw.symm.trans hout0)
      rw [hwv, hv0v]
    · intro hp
      exact hother p hp v w hv h0 hw
  have hmain : ((u.1 = "Electrocoagulation" ∧ p = "pH") → w = adjust_pH v) ∧
      (¬(u.1 = "Electrocoagulation" ∧ p = "pH") → w ≤ v) := by
    by_cases hplan : plan = 1
    · rw [treatment_units, if_pos hplan] at hu
      simp only [List.mem_cons, List.not_mem_nil, or_false] at hu
      rcases hu with rfl | rfl | rfl | rfl
      · exact ⟨fun hcon => absurd hcon.1 (by decide),
          fun _ => hpure fineScreenRemovals
            (by norm_num [fineScreenRemovals, List.forall_mem_cons]) hrun⟩
      · exact ⟨fun hcon => absurd hcon.1 (by decide),
          fun _ => hpure plainSedRemovals
            (by norm_num [plainSedRemovals, List.forall_mem_cons]) hrun⟩
      · refine ⟨fun hcon => (hec2 hrun).1 hcon.2, fun hn => ?_⟩
        exact (hec2 hrun).2 (fun hp => hn ⟨rfl, hp⟩)
      · exact ⟨fun hcon => absurd hcon.1 (by decide),
          fun _ => hpure rapidSandRemovals
            (by norm_num [rapidSandRemovals, List.forall_mem_cons]) hrun⟩
    · rw [treatment_units, if_neg hplan] at hu
      simp only [List.mem_cons, List.not_mem_nil, or_false] at hu
      rcases hu with rfl | rfl | rfl | rfl | rfl | rfl
      · exact ⟨fun hcon => absurd hcon.1 (by decide),
          fun _ => hpure fineScreenRemovals
            (by norm_num [fineScreenRemovals, List.forall_mem_cons]) hrun⟩
      · exact ⟨fun hcon => absurd hcon.1 (by decide),
          fun _ => hpure coagulationRemovals
            (by norm_num [coagulationRemovals, List.forall_mem_cons]) hrun⟩
      · exact ⟨fun hcon => absurd hcon.1 (by decide),
          fun _ => hpure flocculationRemovals
            (by norm_num [flocculationRemovals, List.forall_mem_cons]) hrun⟩
      · exact ⟨fun hcon => absurd hcon.1 (by decide),
          fun _ => hpure sedimentationRemovals
            (by norm_num [sedimentationRemovals, List.forall_mem_cons]) hrun⟩
      · refine ⟨fun hcon => (hec2 hrun).1 hcon.2, fun hn => ?_⟩
        exact (hec2 hrun).2 (fun hp => hn ⟨rfl, hp⟩)
      · exact ⟨fun hcon => absurd hcon.1 (by decide),
          fun _ => hpure rapidSandRemovals
            (by norm_num [rapidSandRemovals, List.forall_mem_cons]) hrun⟩
  refine ⟨hmain.1, hmain.2, ?_⟩
  intro x hx
  refine ⟨fun hlt => ?_, fun hgt => ?_, fun h7 h8 => ?_⟩
  · have he : adjust_pH x = min (x * 1.1) 7 := by
      rw [adjust_pH, if_pos hlt]; norm_num
    exact ⟨he, by rw [he]; exact le_min (by nlinarith) (le_of_lt hlt),
      by rw [he]; exact min_le_right _ _⟩
  · have hn7 : ¬x < 7 := by linarith
    have he : adjust_pH x = max (x * 0.95) 7.5 := by
      rw [adjust_pH, if_neg hn7, if_pos hgt]
    exact ⟨he, by rw [he]; exact le_max_right _ _,
      by rw [he]; exact max_le (by nlinarith) (by linarith)⟩
  · have hn7 : ¬x < 7 := by linarith
    have hn8 : ¬x > 8 := by linarith
    rw [adjust_pH, if_neg hn7, if_neg hn8]

/-- Witness for C4: the fine screen applied to the Plan 1 raw vector does
not increase BOD, and the Electrocoagulation stage maps the raw pH 7.5 to
exactly `adjust_pH 7.5`. -/
theorem C4_wit :
    (∃ out w, fine_screen (raw_wastewater 1) = some out ∧
      alistLookup out "BOD" = some w ∧ w ≤ 1025) ∧
    (∃ out w, electrocoagulation 1 (raw_wastewater 1) = some out ∧
      alistLookup out "pH" = some w ∧ w = adjust_pH 7.5) := by
  constructor
  · refine ⟨_, _, rfl, rfl, ?_⟩
    have h := C4_thm 1 ("Fine Screen", fine_screen) (List.mem_cons_self _ _)
      (raw_wastewater 1) _ "BOD" 1025 _ rfl rfl (by norm_num) rfl
    exact h.2.1 (fun hcon => absurd hcon.1 (by decide))
  · refine ⟨_, _, rfl, rfl, ?_⟩
    have h := C4_thm 1 ("Electrocoagulation", electrocoagulation 1)
      (List.mem_cons_of_mem _ (List.mem_cons_of_mem _ (List.mem_cons_self _ _)))
      (raw_wastewater 1) _ "pH" 7.5 _ rfl rfl (by norm_num) rfl
    exact h.1 ⟨rfl, rfl⟩

/-- C7: the Plan 1 run yields a final BOD value that is at most
`1025·(1−0.025)·(1−0.325)·(1−0.725)·(1−0.20)`, the compliance record for
BOD is `(value, value ≤ 30)` (PASS iff the final value is ≤ 30), and that
value in fact exceeds 30. -/
theorem C7_thm :
    ∃ h last v, run_simulation 1 = some h ∧ h.getLast? = some last ∧
      alistLookup last.2 "BOD" = some v ∧
      v ≤ 1025 * (1 - 0.025) * (1 - 0.325) * (1 - 0.725) * (1 - 0.20) ∧
      alistLookup (evaluate_compliance last.2) "BOD" = some (v, decide (v ≤ 30)) ∧
      ¬v ≤ 30 := by
  refine ⟨_, _, _, rfl, rfl, rfl, ?_, rfl, ?_⟩
  · norm_num
  · norm_num

/-- C8: the compliance evaluation is memoized on the object state: if a
call returns state `s'` and record `r`, calling again on `s'` returns the
identical `(s', r)`; a call on a non-empty history leaves the state
untouched; a call on an empty history stores exactly the result of one
simulation run. -/
theorem C8_thm (s s' : Simulation) (r : List (Param × ℚ × Bool))
    (h : evaluate_compliance_run s = some (s', r)) :
    evaluate_compliance_run s' = some (s', r) ∧
    (s.history ≠ [] → s' = s) ∧
    (s.history = [] → ∃ hist, run_simulation s.plan = some hist ∧
      s' = { s with history := hist }) := by
  by_cases he : s.history = []
  · rw [evaluate_compliance_run, if_pos he] at h
    cases hr : run_simulation_state s with
    | none => rw [hr] at h; simp at h
    | some t =>
      rw [hr] at h
      simp only [Option.some_bind] at h
      cases hl : t.history.getLast? with
      | none => rw [hl] at h; simp at h
      | some last =>
        rw [hl] at h
        simp only [Option.map_some', Option.some.injEq, Prod.mk.injEq] at h
        obtain ⟨hs', hr'⟩ := h
        subst hs'
        subst hr'
        have hne : t.history ≠ [] := by
          intro hnil
          rw [hnil] at hl
          simp at hl
        refine ⟨?_, fun hcon => absurd he hcon, fun _ => ?_⟩
        · rw [evaluate_compliance_run, if_neg hne]
          simp [hl]
        · rw [run_simulation_state] at hr
          rcases Option.map_eq_some'.mp hr with ⟨hist, hh, rfl⟩
          exact ⟨hist, hh, rfl⟩
  · rw [evaluate_compliance_run, if_neg he] at h
    simp only [Option.some_bind] at h
    cases hl : s.history.getLast? with
    | none => rw [hl] at h; simp at h
    | some last =>
      rw [hl] at h
      simp only [Option.map_some', Option.some.injEq, Prod.mk.injEq] at h
      obtain ⟨hs', hr'⟩ := h
      subst hs'
      subst hr'
      refine ⟨?_, fun _ => rfl, fun hcon => absurd hcon he⟩
      rw [evaluate_compliance_run, if_neg he]
      simp [hl]

/-- Witness for C8 on a fresh Plan 1 simulation object. -/
theorem C8_wit : ∃ s' r, evaluate_compliance_run (mkSim 1) = some (s', r) ∧
    evaluate_compliance_run s' = some (s', r) := by
  obtain ⟨q, hq⟩ : ∃ q, evaluate_compliance_run (mkSim 1) = some q := ⟨_, rfl⟩
  exact ⟨q.1, q.2, by rw [hq], (C8_thm (mkSim 1) q.1 q.2 (by rw [hq])).1⟩

/-- C1 counterexample: constructing with the invalid plan selector 3
raises no error: the full 6-stage Plan 2 pipeline is built, the history
starts empty, and the simulation runs to a 7-entry history — so pipeline
construction is not prevented. -/
theorem C1_cex :
    (treatment_units 3).map Prod.fst =
      ["Fine Screen", "Coagulation Tank", "Flocculation Chamber",
       "Sedimentation", "Electrocoagulation", "Rapid Sand Filter"] ∧
    (mkSim 3).history = [] ∧
    ∃ h, run_simulation 3 = some h ∧ h.length = 7 :=
  ⟨rfl, rfl, _, rfl, rfl⟩

/-- C1 amended: construction never fails and no InvalidPlan error exists;
every plan selector other than 1 (valid 2 or invalid 0, 3, …) is treated
exactly as Plan 2, and the history starts empty. -/
theorem C1_thm (plan : Nat) (hplan : plan ≠ 1) :
    treatment_units plan = treatment_units 2 ∧
    raw_wastewater plan = raw_wastewater 2 ∧
    run_simulation plan = run_simulation 2 ∧
    (mkSim plan).history = [] := by
  have h2 : ¬(2 : Nat) = 1 := by decide
  have hec : electrocoagulation plan = electrocoagulation 2 := by
    funext c
    rw [electrocoagulation, electrocoagulation, electroRemovals, electroRemovals,
      if_neg hplan, if_neg h2]
  have hunits : treatment_units plan = treatment_units 2 := by
    rw [treatment_units, treatment_units, if_neg hplan, if_neg h2, hec]
  have hraw : raw_wastewater plan = raw_wastewater 2 := by
    simp only [raw_wastewater, if_neg hplan, if_neg h2]
  refine ⟨hunits, hraw, ?_, rfl⟩
  rw [run_simulation, run_simulation, hunits, hraw]

/-- Witness for C1's amended statement at the invalid selector 3. -/
theorem C1_wit : treatment_units 3 = treatment_units 2 ∧
    run_simulation 3 = run_simulation 2 := by
  have h := C1_thm 3 (by decide)
  exact ⟨h.1, h.2.2.1⟩

/-- C2 counterexample: the fine screen removal profile does not list pH
at all, and applying the fine screen to the Plan 1 raw vector leaves the
pH value 7.5 exactly unchanged — no multiplicative attenuation occurs. -/
theorem C2_cex :
    "pH" ∉ fineScreenRemovals.map Prod.fst ∧
    ∃ out, fine_screen (raw_wastewater 1) = some out ∧
      alistLookup (raw_wastewater 1) "pH" = some 7.5 ∧
      alistLookup out "pH" = some 7.5 :=
  ⟨by decide, _, rfl, rfl, rfl⟩

/-- C2 amended: pH is absent from the removal profile of every stage
other than Electrocoagulation, so each of those stages leaves the pH
value exactly unchanged. -/
theorem C2_thm (removals : List (Param × ℚ))
    (hmem : removals ∈ [fineScreenRemovals, plainSedRemovals, coagulationRemovals,
      flocculationRemovals, sedimentationRemovals, rapidSandRemovals])
    (conc out : Conc) (v : ℚ)
    (h : applyRemovals removals conc = some out)
    (hv : alistLookup conc "pH" = some v) :
    "pH" ∉ removals.map Prod.fst ∧ alistLookup out "pH" = some v := by
  have hph : "pH" ∉ removals.map Prod.fst := by
    simp only [List.mem_cons, List.not_mem_nil, or_false] at hmem
    rcases hmem with rfl | rfl | rfl | rfl | rfl | rfl <;> decide
  refine ⟨hph, ?_⟩
  rw [applyRemovals_lookup_notMem removals conc out "pH" hph h]
  exact hv

/-- Witness for C2's amended statement at the fine screen and the Plan 1
raw vector. -/
theorem C2_wit :
    ∃ out, applyRemovals fineScreenRemovals (raw_wastewater 1) = some out ∧
      ("pH" ∉ fineScreenRemovals.map Prod.fst ∧
        alistLookup out "pH" = some 7.5) := by
  refine ⟨_, rfl, ?_⟩
  exact C2_thm fineScreenRemovals (List.mem_cons_self _ _) (raw_wastewater 1)
    _ 7.5 rfl rfl

/-- C10: for both plans the compliance record covers all 12 tracked
parameters in insertion order; pH receives `(value, true)`; every non-pH
tracked parameter has an entry in the effluent-limit table; and the skip
branch never fires on the built-in constants (record length equals vector
length). -/
theorem C10_thm :
    ∃ h1 f1 h2 f2,
      run_simulation 1 = some h1 ∧ h1.getLast? = some f1 ∧
      run_simulation 2 = some h2 ∧ h2.getLast? = some f2 ∧
      (evaluate_compliance f1.2).map (fun e => e.1) = paramNames ∧
      (evaluate_compliance f2.2).map (fun e => e.1) = paramNames ∧
      paramNames.length = 12 ∧
      (evaluate_compliance f1.2).length = f1.2.length ∧
      (evaluate_compliance f2.2).length = f2.2.length ∧
      (∀ p ∈ paramNames, p ≠ "pH" → (alistLookup effluent_limits p).isSome = true) ∧
      (∃ v, alistLookup (evaluate_compliance f1.2) "pH" = some (v, true)) ∧
      (∃ v, alistLookup (evaluate_compliance f2.2) "pH" = some (v, true)) :=
  ⟨_, _, _, _, rfl, rfl, rfl, rfl, rfl, rfl, rfl, rfl, rfl, by decide,
    ⟨_, rfl⟩, ⟨_, rfl⟩⟩

end Wastewater
